import Mathlib

/-!
Verification of the feed ingestion and categorization pipeline of
`fetch_feed.py`: the text summarizer (`summarize_text`), the feed item
fetcher (`fetch_feed_items`), the entry categorizer (`categorize_entry`)
and the pipeline orchestrator (`process_entries`), embedded shallowly.
Strings are modelled as `List Char` at the core, with `String` wrappers
matching the Python signatures.  Regular-expression operations of the
source are embedded as the character scans they denote on the source's
concrete patterns.
-/

namespace Briefed

/-! ## Character classes

`pySpace` models Python's `\s` on ASCII text; `isTerm` the sentence
terminators of the split pattern `(?<=[.!?])\s+`; `wordChar` models `\w`
(ASCII), used for the `\b` anchors of the keyword patterns. -/

def pySpace (c : Char) : Bool :=
  c = ' ' || c = '\t' || c = '\n' || c = '\r' || c = '\x0b' || c = '\x0c'

def isTerm (c : Char) : Bool :=
  c = '.' || c = '!' || c = '?'

def wordChar (c : Char) : Bool :=
  c.isAlphanum || c = '_'

/-! ## Tag stripping: `re.sub(r"<[^<]+?>", "", text)`

A match is `<`, one or more characters other than `<`, then `>`; the lazy
quantifier stops at the first `>`.  `scanTag` looks for that closing `>`
(failing on an intervening `<`), `findTagEnd` additionally requires at
least one content character, and `stripTagsFuel` removes the leftmost,
non-overlapping matches exactly as `re.sub` does.  Fuel equal to the
length of the list suffices because every step consumes at least one
character. -/

def scanTag : List Char → Option (List Char)
  | [] => none
  | c :: rest => if c = '>' then some rest else if c = '<' then none else scanTag rest

def findTagEnd : List Char → Option (List Char)
  | [] => none
  | c :: rest => if c = '<' then none else scanTag rest

def stripTagsFuel : Nat → List Char → List Char
  | 0, _ => []
  | _ + 1, [] => []
  | fuel + 1, c :: rest =>
    if c = '<' then
      match findTagEnd rest with
      | some rest' => stripTagsFuel fuel rest'
      | none => c :: stripTagsFuel fuel rest
    else c :: stripTagsFuel fuel rest

def stripTags (l : List Char) : List Char := stripTagsFuel l.length l

/-! ## Whitespace collapsing: `re.sub(r"\s+", " ", text).strip()` -/

/-- `collapseWsAux b l`: replace each maximal run of whitespace by a single
space; `b` records whether the previous character was part of a run whose
space has already been emitted. -/
def collapseWsAux : Bool → List Char → List Char
  | _, [] => []
  | b, c :: rest =>
    if pySpace c then
      if b then collapseWsAux true rest else ' ' :: collapseWsAux true rest
    else c :: collapseWsAux false rest

def collapseWs (l : List Char) : List Char := collapseWsAux false l

/-- Python `str.strip()`: drop leading and trailing whitespace. -/
def pyStrip (l : List Char) : List Char :=
  (((l.dropWhile pySpace).reverse).dropWhile pySpace).reverse

/-! ## Sentence splitting: `re.split(r"(?<=[.!?])\s+", text)`

A separator is a maximal whitespace run whose first character is preceded
by `.`, `!` or `?`.  The split is a left-to-right scan, modelled as a fold
over an explicit machine state: `pieces` are the completed pieces, `cur`
the current piece reversed, `inSep` whether the scan is inside a separator
run, and `prev` the last character consumed (the lookbehind).  The initial
`prev` is a NUL sentinel, which is not a terminator, so a leading
whitespace run is not a separator, as with the regex at position 0. -/

structure SplitSt where
  pieces : List (List Char)
  cur : List Char
  inSep : Bool
  prev : Char
deriving Repr, DecidableEq

def splitStep (st : SplitSt) (c : Char) : SplitSt :=
  if st.inSep then
    if pySpace c then { st with prev := c }
    else { pieces := st.pieces, cur := [c], inSep := false, prev := c }
  else
    if isTerm st.prev && pySpace c then
      { pieces := st.pieces ++ [st.cur.reverse], cur := [], inSep := true, prev := c }
    else
      { st with cur := c :: st.cur, prev := c }

def splitFinish (st : SplitSt) : List (List Char) :=
  st.pieces ++ [st.cur.reverse]

def splitInit : SplitSt := ⟨[], [], false, '\x00'⟩

def splitSentences (l : List Char) : List (List Char) :=
  splitFinish (l.foldl splitStep splitInit)

/-- `" ".join(pieces)`. -/
def joinSp : List (List Char) → List Char
  | [] => []
  | [p] => p
  | p :: ps => p ++ ' ' :: joinSp ps

/-! ## The summarizer: `summarize_text` -/

def summarizeL (text : List Char) (max_sentences : Nat) : List Char :=
  joinSp ((splitSentences (pyStrip (collapseWs (stripTags text)))).take max_sentences)

/-- `summarize_text(text, max_sentences)` of the source (default
`max_sentences=2` is passed explicitly at call sites). -/
def summarize_text (text : String) (max_sentences : Nat) : String :=
  ⟨summarizeL text.toList max_sentences⟩

/-! ## Raw tag markup

`hasTag l` decides whether `l` still contains a match of the stripping
pattern `<[^<]+?>`. -/

def hasTag : List Char → Bool
  | [] => false
  | c :: rest => (c = '<' && (findTagEnd rest).isSome) || hasTag rest

/-! ## The fetcher: `fetch_feed_items`

The network and XML layer is abstracted: a successful
`requests.get` + `ET.fromstring` yields the document's `<item>` elements
in document order, each with optional `title`, `link`, `pubDate` and
`description` children; any failure (network, HTTP status, XML parse) is
the `none` outcome, on which the `except` branch logs and the function
returns the empty list. -/

structure XmlItem where
  title : Option String
  link : Option String
  pubDate : Option String
  description : Option String
deriving Repr, DecidableEq

structure RawItem where
  title : String
  link : String
  published : String
  description : String
deriving Repr, DecidableEq

/-- `item.findtext(tag, default="")` for the four fields. -/
def itemToRaw (it : XmlItem) : RawItem :=
  ⟨it.title.getD "", it.link.getD "", it.pubDate.getD "", it.description.getD ""⟩

def fetch_feed_items (outcome : Option (List XmlItem)) (count : Nat) : List RawItem :=
  match outcome with
  | none => []
  | some items => (items.take count).map itemToRaw

/-! ## Date parsing and the sort key

Modelled from the spec: the source sorts by `email.utils.parsedate`
(Python standard library, not part of this repository), which parses an
RFC-2822-style date `[weekday,] day month-name year [hh:mm:ss[ zone]]`
into a 9-tuple `(year, month, day, hour, minute, second, 0, 1, -1)` or
`None`; two-digit years below 69 map to 20xx, below 100 to 19xx.  The
sort key of the source is that tuple, or `(0,)` when parsing fails, and
tuples compare lexicographically. -/

structure DateT where
  year : Nat
  month : Nat
  day : Nat
  hour : Nat
  minute : Nat
  second : Nat
deriving Repr, DecidableEq

/-- Python `str.split()` with no argument: the maximal non-whitespace
runs, in order. -/
def tokenize (l : List Char) : List (List Char) :=
  let fin := l.foldl
    (fun (acc : List (List Char) × List Char) c =>
      if pySpace c then
        if acc.2 = [] then acc else (acc.1 ++ [acc.2.reverse], [])
      else (acc.1, c :: acc.2))
    ([], [])
  if fin.2 = [] then fin.1 else fin.1 ++ [fin.2.reverse]

/-- Python `str.split(sep)` for a one-character separator: empty pieces
kept, as `"0::0".split(":")` keeps the middle empty string. -/
def splitKeep (sep : Char) (l : List Char) : List (List Char) :=
  let fin := l.foldl
    (fun (acc : List (List Char) × List Char) c =>
      if c = sep then (acc.1 ++ [acc.2.reverse], []) else (acc.1, c :: acc.2))
    ([], [])
  fin.1 ++ [fin.2.reverse]

/-- `int(token)` on a split token: all digits, at least one. -/
def digitsToNat (l : List Char) : Option Nat :=
  match l with
  | [] => none
  | _ =>
    l.foldl
      (fun acc c =>
        match acc with
        | none => none
        | some n => if c.isDigit then some (n * 10 + (c.toNat - 48)) else none)
      (some 0)

def lowerL (l : List Char) : List Char := l.map Char.toLower

def monthNum (m : List Char) : Option Nat :=
  if m = "jan".toList || m = "january".toList then some 1
  else if m = "feb".toList || m = "february".toList then some 2
  else if m = "mar".toList || m = "march".toList then some 3
  else if m = "apr".toList || m = "april".toList then some 4
  else if m = "may".toList then some 5
  else if m = "jun".toList || m = "june".toList then some 6
  else if m = "jul".toList || m = "july".toList then some 7
  else if m = "aug".toList || m = "august".toList then some 8
  else if m = "sep".toList || m = "september".toList then some 9
  else if m = "oct".toList || m = "october".toList then some 10
  else if m = "nov".toList || m = "november".toList then some 11
  else if m = "dec".toList || m = "december".toList then some 12
  else none

def parseTime (t : List Char) : Option (Nat × Nat × Nat) :=
  match splitKeep ':' t with
  | [h, m] => do
    let hh ← digitsToNat h
    let mm ← digitsToNat m
    pure (hh, mm, 0)
  | [h, m, s] => do
    let hh ← digitsToNat h
    let mm ← digitsToNat m
    let ss ← digitsToNat s
    pure (hh, mm, ss)
  | _ => none

def dayNames : List (List Char) :=
  ["mon", "tue", "wed", "thu", "fri", "sat", "sun",
   "monday", "tuesday", "wednesday", "thursday", "friday",
   "saturday", "sunday"].map String.toList

def fixYear (y : Nat) : Nat :=
  if y < 69 then y + 2000 else if y < 100 then y + 1900 else y

def parsedateM (s : String) : Option DateT :=
  let toks := tokenize s.toList
  let toks :=
    match toks with
    | t0 :: rest =>
      if t0.getLast? = some ',' || dayNames.contains (lowerL t0) then rest else toks
    | [] => toks
  match toks with
  | dd :: mon :: yy :: rest => do
    let d ← digitsToNat dd
    let mo ← monthNum (lowerL mon)
    let y0 ← digitsToNat yy
    let y := fixYear y0
    let (h, mi, sec) ←
      match rest with
      | [] => none
      | t :: _ => parseTime t
    pure ⟨y, mo, d, h, mi, sec⟩
  | _ => none

/-- The sort key of an entry: the parsed 9-tuple as a list, or `[0]`
(`(0,)` in the source) when the date does not parse.  Python compares
tuples lexicographically, `lexLe` below. -/
def dateKey (s : String) : List Int :=
  match parsedateM s with
  | some t => [(t.year : Int), t.month, t.day, t.hour, t.minute, t.second, 0, 1, -1]
  | none => [0]

def lexLe : List Int → List Int → Bool
  | [], _ => true
  | _ :: _, [] => false
  | a :: as, b :: bs => if a < b then true else if b < a then false else lexLe as bs

/-! ## Entries and the orchestrator: `process_entries`

`process_entries` iterates the feed mapping in insertion order (modelled
as a list of name–outcome pairs), builds an entry per fetched item, sorts
by parsed date descending (`reverse=True`; Python's sort is stable, and a
stable sort under a total preorder is unique, so stable insertion sort
below is extensionally the source's sort), then attaches the display
date. -/

structure PreEntry where
  source : String
  title : String
  link : String
  published : String
  summary : String
deriving Repr, DecidableEq

structure Entry where
  source : String
  title : String
  link : String
  published : String
  summary : String
  date : String
deriving Repr, DecidableEq

def mkPre (source : String) (r : RawItem) : PreEntry :=
  let s := summarize_text r.description 2
  ⟨source, r.title, r.link, r.published, if s = "" then "No summary available." else s⟩

def gather : List (String × Option (List XmlItem)) → List PreEntry
  | [] => []
  | (s, o) :: rest => (fetch_feed_items o 5).map (mkPre s) ++ gather rest

/-- Descending order on parsed dates: `a` may precede `b` when the key of
`b` is lexicographically at most the key of `a`. -/
def entryGE (a b : PreEntry) : Bool :=
  lexLe (dateKey b.published) (dateKey a.published)

def insertGE (a : PreEntry) : List PreEntry → List PreEntry
  | [] => [a]
  | b :: bs => if entryGE a b then a :: b :: bs else b :: insertGE a bs

def sortGE : List PreEntry → List PreEntry
  | [] => []
  | a :: as => insertGE a (sortGE as)

/-- Modelled from the spec: `displayDate` is the "short human-readable
date (day, abbreviated month, 4-digit year)" that step 4 of the
orchestrator derives with `parsedate_to_datetime` + `strftime("%d %b %Y")`
(Python standard library, not part of this repository); empty when
parsing fails. -/
def monAbbrev (n : Nat) : String :=
  match n with
  | 1 => "Jan" | 2 => "Feb" | 3 => "Mar" | 4 => "Apr" | 5 => "May" | 6 => "Jun"
  | 7 => "Jul" | 8 => "Aug" | 9 => "Sep" | 10 => "Oct" | 11 => "Nov" | 12 => "Dec"
  | _ => ""

def two (n : Nat) : String :=
  if n < 10 then "0" ++ toString n else toString n

def displayDate (s : String) : String :=
  match parsedateM s with
  | some t => two t.day ++ " " ++ monAbbrev t.month ++ " " ++ toString t.year
  | none => ""

def addDate (p : PreEntry) : Entry :=
  ⟨p.source, p.title, p.link, p.published, p.summary, displayDate p.published⟩

def process_entries (feeds : List (String × Option (List XmlItem))) : List Entry :=
  (sortGE (gather feeds)).map addDate

/-! ## The categorizer: `categorize_entry`

The source text (lines 83–88) leaves the two `categories.append` calls
dedented from their `if`, which is an `IndentationError`: the module does
not load and `categorize_entry` cannot run at all.  The definitions below
embed the evident intent, with each `append` as the body of the `if`
above it, which is also what the spec describes.

Each keyword pattern is `\b<literal>\b`; every literal starts and ends
with a word character, so the pattern matches exactly when the literal
occurs with no word character immediately before or after it
(`wbSearchAux`). -/

def AI_KEYWORDS : List (List Char) :=
  ["ai", "artificial intelligence", "machine learning",
   "gen ai", "chatgpt", "openai", "deep learning",
   "neural network", "generative ai", "agent ai",
   "agentic ai", "gpt"].map String.toList

def RESEARCH_KEYWORDS : List (List Char) :=
  ["study", "research", "survey", "report",
   "whitepaper", "analysis", "insight",
   "academic", "institute", "data-driven"].map String.toList

def afterOK (pat t : List Char) : Bool :=
  match t.drop pat.length with
  | [] => true
  | c :: _ => ¬wordChar c

def wbSearchAux (pat : List Char) : Char → List Char → Bool
  | prev, t =>
    (¬wordChar prev && pat.isPrefixOf t && afterOK pat t) ||
      match t with
      | [] => false
      | c :: rest => wbSearchAux pat c rest

/-- `re.search(r"\b<pat>\b", text)` for a literal starting and ending in a
word character; the space sentinel stands for the start of the string. -/
def wbSearch (pat text : List Char) : Bool :=
  wbSearchAux pat ' ' text

def entryText (e : Entry) : List Char :=
  ((e.title ++ " " ++ e.summary).toList).map Char.toLower

def aiHit (e : Entry) : Bool :=
  AI_KEYWORDS.any fun p => wbSearch p (entryText e)

def researchHit (e : Entry) : Bool :=
  RESEARCH_KEYWORDS.any fun p => wbSearch p (entryText e)

def catList (e : Entry) : List String :=
  (if e.source = "The B2B Marketer" then ["B2B"] else []) ++
  (if e.source = "American Marketing Association" then ["Research"] else []) ++
  (if aiHit e then ["AI"] else []) ++
  (if researchHit e then ["Research"] else [])

/-- `list(set(categories))` of the source, as the unordered set it
denotes (the spec treats the output as an unordered set). -/
def categorize_entry (e : Entry) : Finset String :=
  (if catList e = [] then ["General"] else catList e).toFinset

/-! ## Properties of the categorizer (C1, C2, C6, C8) -/

/-- C1: for every entry, the category set of `categorize_entry` is
non-empty, contained in `{AI, B2B, Research, General}`, and contains
`General` exactly when neither source override nor any AI/Research
keyword rule fired.  This holds of the intended categorizer embedded
above; the source text itself raises `IndentationError` at line 84 before
`categorize_entry` can ever run. -/
theorem categorize_entry_sound (e : Entry) :
    (categorize_entry e).Nonempty ∧
    categorize_entry e ⊆ {"AI", "B2B", "Research", "General"} ∧
    ("General" ∈ categorize_entry e ↔
      (e.source ≠ "The B2B Marketer" ∧ e.source ≠ "American Marketing Association" ∧
       aiHit e = false ∧ researchHit e = false)) := by
  by_cases h1 : e.source = "The B2B Marketer" <;>
  by_cases h2 : e.source = "American Marketing Association" <;>
  by_cases h3 : aiHit e = true <;>
  by_cases h4 : researchHit e = true <;>
  simp_all [categorize_entry, catList, Finset.subset_iff]

/-- C6: the two source overrides are unconditional — an entry from
`The B2B Marketer` is always tagged `B2B` and one from
`American Marketing Association` always `Research`, whatever the text.
Again a property of the intended categorizer; the source text raises
`IndentationError` before it can run. -/
theorem categorize_entry_source_overrides (e : Entry) :
    (e.source = "The B2B Marketer" → "B2B" ∈ categorize_entry e) ∧
    (e.source = "American Marketing Association" → "Research" ∈ categorize_entry e) := by
  by_cases h1 : e.source = "The B2B Marketer" <;>
  by_cases h2 : e.source = "American Marketing Association" <;>
  by_cases h3 : aiHit e = true <;>
  by_cases h4 : researchHit e = true <;>
  simp_all [categorize_entry, catList]

/-- C8: categorization is a pure function of the entry's source, title
and summary — two entries agreeing on those three fields (the only ones
the source reads) get the same category set, so categorizing the same
entry twice yields the same set.  Property of the intended categorizer;
the source text raises `IndentationError` before it can run. -/
theorem categorize_entry_deterministic
    (src title link pub summ date link' pub' date' : String) :
    categorize_entry ⟨src, title, link, pub, summ, date⟩ =
      categorize_entry ⟨src, title, link', pub', summ, date'⟩ := rfl

/-- The single item of the spec's end-to-end scenario 1. -/
def scenarioItem : XmlItem :=
  ⟨some "Q3 Supply Chain Report", some "https://example.com/a",
   some "Thu, 02 Jan 2025 00:00:00 GMT",
   some "<p>A study on logistics.</p> More info."⟩

/-- C2, counterexample: the scenario names its feed source
`"B2B Example"`, but the categorizer's B2B override tests for the source
name `"The B2B Marketer"` only, so the produced entry is categorized
`{Research}` (via the `study`/`report` keywords), not
`{B2B, Research}` as the scenario asserts.  The summary half of the
scenario does hold. -/
theorem scenario1_source_not_designated :
    (process_entries [("B2B Example", some [scenarioItem])]).map
        (fun e => (e.summary, categorize_entry e)) =
      [("A study on logistics. More info.", {"Research"})] ∧
    ({"Research"} : Finset String) ≠ {"B2B", "Research"} := by
  constructor
  · decide
  · decide

/-- C2, amended: with the designated B2B source name
`"The B2B Marketer"`, the pipeline's entry for the scenario item has
summary `"A study on logistics. More info."` and category set
`{B2B, Research}`, as computed by the intended categorizer (the source
text raises `IndentationError` as written). -/
theorem scenario1_designated_source :
    (process_entries [("The B2B Marketer", some [scenarioItem])]).map
        (fun e => (e.summary, categorize_entry e)) =
      [("A study on logistics. More info.", {"B2B", "Research"})] := by
  decide

/-! ## Properties of the fetcher and failure isolation (C3, C7) -/

theorem gather_append (l1 l2 : List (String × Option (List XmlItem))) :
    gather (l1 ++ l2) = gather l1 ++ gather l2 := by
  induction l1 with
  | nil => simp [gather]
  | cons p rest ih => cases p; simp [gather, ih]

/-- C3: a failed fetch (network error, malformed XML or non-2xx status —
the `none` outcome) yields the empty item list rather than an exception,
and the orchestrator's result over any source list containing the failed
source is exactly its result with that source removed: one bad source
never aborts the pipeline, which is total and always returns a (possibly
empty) entry list. -/
theorem fetch_failure_isolated (pre post : List (String × Option (List XmlItem)))
    (s : String) (c : Nat) :
    fetch_feed_items none c = [] ∧
    process_entries (pre ++ [(s, none)] ++ post) = process_entries (pre ++ post) := by
  refine ⟨rfl, ?_⟩
  unfold process_entries
  rw [gather_append, gather_append, gather_append]
  simp [gather, fetch_feed_items]

/-- C7: on a successful fetch the item list is bounded by the requested
count, is a prefix of the conversion of the whole document (so the first
N `<item>` elements, in document order), and every missing field of an
item defaults to the empty string. -/
theorem fetch_feed_items_first_n (doc : List XmlItem) (n : Nat) :
    (fetch_feed_items (some doc) n).length ≤ n ∧
    (∃ t, fetch_feed_items (some doc) n ++ t = doc.map itemToRaw) ∧
    (∀ it : XmlItem,
      (it.title = none → (itemToRaw it).title = "") ∧
      (it.link = none → (itemToRaw it).link = "") ∧
      (it.pubDate = none → (itemToRaw it).published = "") ∧
      (it.description = none → (itemToRaw it).description = "")) := by
  refine ⟨?_, ⟨(doc.drop n).map itemToRaw, ?_⟩, ?_⟩
  · simp [fetch_feed_items]
  · simp [fetch_feed_items, ← List.map_append]
  · intro it
    refine ⟨?_, ?_, ?_, ?_⟩ <;> intro h <;> simp [itemToRaw, h]

/-! ## Properties of the sort (C4) -/

theorem lexLe_total : ∀ u v : List Int, lexLe u v = true ∨ lexLe v u = true := by
  intro u
  induction u with
  | nil => intro v; left; rfl
  | cons a as ih =>
    intro v
    cases v with
    | nil => right; rfl
    | cons b bs =>
      by_cases hab : a < b
      · left; simp [lexLe, hab]
      · by_cases hba : b < a
        · right; simp [lexLe, hba, hab]
        · rcases ih bs with h | h
          · left; simp [lexLe, hab, hba, h]
          · right; simp [lexLe, hab, hba, h]

theorem lexLe_trans :
    ∀ u v w : List Int, lexLe u v = true → lexLe v w = true → lexLe u w = true := by
  intro u
  induction u with
  | nil => intro v w _ _; rfl
  | cons a as ih =>
    intro v w huv hvw
    match v, w with
    | [], _ => simp [lexLe] at huv
    | _ :: _, [] => simp [lexLe] at hvw
    | b :: bs, c :: cs =>
      simp only [lexLe] at huv hvw ⊢
      by_cases h1 : a < b
      · by_cases h2 : b < c
        · have hac : a < c := by omega
          rw [if_pos hac]
        · rw [if_neg h2] at hvw
          by_cases h3 : c < b
          · rw [if_pos h3] at hvw; exact absurd hvw (by simp)
          · have hac : a < c := by omega
            rw [if_pos hac]
      · rw [if_neg h1] at huv
        by_cases h4 : b < a
        · rw [if_pos h4] at huv; exact absurd huv (by simp)
        · rw [if_neg h4] at huv
          by_cases h2 : b < c
          · have hac : a < c := by omega
            rw [if_pos hac]
          · rw [if_neg h2] at hvw
            by_cases h3 : c < b
            · rw [if_pos h3] at hvw; exact absurd hvw (by simp)
            · rw [if_neg h3] at hvw
              have hac : ¬a < c := by omega
              have hca : ¬c < a := by omega
              rw [if_neg hac, if_neg hca]
              exact ih bs cs huv hvw

theorem entryGE_total (a b : PreEntry) : entryGE a b = true ∨ entryGE b a = true :=
  (lexLe_total (dateKey b.published) (dateKey a.published)).imp id id

theorem entryGE_trans {a b c : PreEntry}
    (h1 : entryGE a b = true) (h2 : entryGE b c = true) : entryGE a c = true :=
  lexLe_trans _ _ _ h2 h1

theorem mem_insertGE (x a : PreEntry) :
    ∀ l : List PreEntry, x ∈ insertGE a l ↔ x = a ∨ x ∈ l := by
  intro l
  induction l with
  | nil => simp [insertGE]
  | cons b bs ih =>
    by_cases h : entryGE a b = true <;> simp [insertGE, h, ih] <;> tauto

theorem pairwise_insertGE (a : PreEntry) :
    ∀ l : List PreEntry, l.Pairwise (fun x y => entryGE x y = true) →
      (insertGE a l).Pairwise (fun x y => entryGE x y = true) := by
  intro l
  induction l with
  | nil => simp [insertGE]
  | cons b bs ih =>
    intro hp
    rw [List.pairwise_cons] at hp
    obtain ⟨hb, hbs⟩ := hp
    by_cases h : entryGE a b = true
    · simp only [insertGE, h, if_pos]
      rw [List.pairwise_cons]
      refine ⟨?_, ?_⟩
      · intro x hx
        rcases List.mem_cons.mp hx with rfl | hx
        · exact h
        · exact entryGE_trans h (hb x hx)
      · rw [List.pairwise_cons]; exact ⟨hb, hbs⟩
    · simp only [insertGE, h, if_neg, Bool.not_eq_true]
      rw [List.pairwise_cons]
      refine ⟨?_, ih hbs⟩
      intro x hx
      rcases (mem_insertGE x a bs).mp hx with rfl | hx
      · rcases entryGE_total x b with hh | hh
        · exact absurd hh h
        · exact hh
      · exact hb x hx

theorem pairwise_sortGE :
    ∀ l : List PreEntry, (sortGE l).Pairwise (fun x y => entryGE x y = true) := by
  intro l
  induction l with
  | nil => simp [sortGE]
  | cons a as ih => exact pairwise_insertGE a _ ih

theorem mem_sortGE (x : PreEntry) : ∀ l : List PreEntry, x ∈ sortGE l ↔ x ∈ l := by
  intro l
  induction l with
  | nil => simp [sortGE]
  | cons a as ih => simp [sortGE, mem_insertGE, ih]

theorem pairwise_get_succ {α : Type} {R : α → α → Prop} :
    ∀ l : List α, l.Pairwise R → ∀ i (h : i + 1 < l.length),
      R (l.get ⟨i, Nat.lt_of_succ_lt h⟩) (l.get ⟨i + 1, h⟩) := by
  intro l
  induction l with
  | nil => intro _ i h; simp at h
  | cons a as ih =>
    intro hp i h
    rw [List.pairwise_cons] at hp
    cases i with
    | zero =>
      simp only [List.get]
      exact hp.1 _ (List.get_mem _ _ _)
    | succ j =>
      simp only [List.get]
      exact ih hp.2 j (Nat.lt_of_succ_lt_succ h)

/-- C4: in the orchestrator's output every adjacent pair is in descending
order of parsed publication date — the key of the later entry is
lexicographically at most the key of the earlier one; an unparseable date
gets the key `[0]` (`(0,)`, time zero), which is at most every key.  The
sort is a total Lean function, so it returns for every date string rather
than raising. -/
theorem process_entries_sorted_desc
    (feeds : List (String × Option (List XmlItem))) (i : Nat)
    (h : i + 1 < (process_entries feeds).length) (s s' : String)
    (hs : parsedateM s = none) :
    lexLe (dateKey ((process_entries feeds).get ⟨i + 1, h⟩).published)
        (dateKey ((process_entries feeds).get ⟨i, Nat.lt_of_succ_lt h⟩).published) = true ∧
    dateKey s = [0] ∧ lexLe (dateKey s) (dateKey s') = true := by
  refine ⟨?_, ?_, ?_⟩
  · have hp : (process_entries feeds).Pairwise
        (fun x y => lexLe (dateKey y.published) (dateKey x.published) = true) := by
      unfold process_entries
      rw [List.pairwise_map]
      exact pairwise_sortGE (gather feeds)
    exact pairwise_get_succ _ hp i h
  · simp [dateKey, hs]
  · have h0 : dateKey s = [0] := by simp [dateKey, hs]
    rw [h0]
    cases hp : parsedateM s' with
    | none => simp [dateKey, hp, lexLe]
    | some t =>
      simp only [dateKey, hp, lexLe]
      have hy : (0 : Int) ≤ (t.year : Int) := Int.natCast_nonneg _
      by_cases hlt : (0 : Int) < (t.year : Int)
      · rw [if_pos hlt]
      · rw [if_neg hlt, if_neg (by omega)]

/-- The two publication dates of the spec's end-to-end scenario 3. -/
def feedScenario3 : List (String × Option (List XmlItem)) :=
  [("Example Feed",
    some [⟨some "t1", some "l1", some "Wed, 01 Jan 2025 00:00:00 GMT", some "d one."⟩,
          ⟨some "t2", some "l2", some "Thu, 02 Jan 2025 00:00:00 GMT", some "d two."⟩])]

/-- Witness for C4 at scenario 3: the Jan 2 entry sorts before the Jan 1
entry, and an unparseable date's key is `[0]`, below a parsed 2025 key. -/
theorem process_entries_sorted_desc_witness :
    lexLe (dateKey ((process_entries feedScenario3).get ⟨1, by decide⟩).published)
        (dateKey ((process_entries feedScenario3).get ⟨0, by decide⟩).published) = true ∧
    dateKey "not a date" = [0] ∧
    lexLe (dateKey "not a date") (dateKey "Thu, 02 Jan 2025 00:00:00 GMT") = true :=
  process_entries_sorted_desc feedScenario3 0 (by decide) "not a date"
    "Thu, 02 Jan 2025 00:00:00 GMT" (by decide)

end Briefed
namespace Briefed

theorem mem_gather (p : PreEntry) :
    ∀ feeds : List (String × Option (List XmlItem)), p ∈ gather feeds →
      ∃ s o, (s, o) ∈ feeds ∧ p ∈ (fetch_feed_items o 5).map (mkPre s) := by
  intro feeds
  induction feeds with
  | nil => intro h; simp [gather] at h
  | cons q rest ih =>
    intro h
    obtain ⟨s, o⟩ := q
    have h' : (∃ a ∈ fetch_feed_items o 5, mkPre s a = p) ∨ p ∈ gather rest := by
      simpa [gather] using h
    rcases h' with ⟨a, ha, rfl⟩ | h2
    · exact ⟨s, o, List.mem_cons_self _ _, List.mem_map.mpr ⟨a, ha, rfl⟩⟩
    · obtain ⟨s', o', hmem, hp⟩ := ih h2
      exact ⟨s', o', List.mem_cons_of_mem _ hmem, hp⟩

/-- C9: every entry the orchestrator returns carries its item's title,
link and published date verbatim (and the feed's source name);
summarization, sorting and date formatting touch only the summary and
date fields. -/
theorem process_entries_fields_verbatim
    (feeds : List (String × Option (List XmlItem))) (e : Entry)
    (he : e ∈ process_entries feeds) :
    ∃ s doc it, (s, some doc) ∈ feeds ∧ it ∈ doc ∧
      e.source = s ∧ e.title = it.title.getD "" ∧ e.link = it.link.getD "" ∧
      e.published = it.pubDate.getD "" := by
  unfold process_entries at he
  obtain ⟨p, hps, rfl⟩ := List.mem_map.mp he
  have hpg : p ∈ gather feeds := (mem_sortGE p _).mp hps
  obtain ⟨s, o, hmem, hp⟩ := mem_gather p feeds hpg
  cases o with
  | none => simp [fetch_feed_items] at hp
  | some doc =>
    obtain ⟨r, hr, rfl⟩ := List.mem_map.mp hp
    have hr' : r ∈ List.take 5 (List.map itemToRaw doc) := by
      simpa [fetch_feed_items] using hr
    obtain ⟨it, hit, rfl⟩ := List.mem_map.mp (List.take_subset _ _ hr')
    exact ⟨s, doc, it, hmem, hit, rfl, rfl, rfl, rfl⟩

/-- Witness for C9 at the scenario 3 feed: the first returned entry's
source, title, link and published date come verbatim from the document. -/
theorem process_entries_fields_verbatim_witness :
    ∃ s doc it, (s, some doc) ∈ feedScenario3 ∧ it ∈ doc ∧
      ((process_entries feedScenario3).get ⟨0, by decide⟩).source = s ∧
      ((process_entries feedScenario3).get ⟨0, by decide⟩).title = it.title.getD "" ∧
      ((process_entries feedScenario3).get ⟨0, by decide⟩).link = it.link.getD "" ∧
      ((process_entries feedScenario3).get ⟨0, by decide⟩).published = it.pubDate.getD "" :=
  process_entries_fields_verbatim feedScenario3 _ (List.get_mem _ _ _)

end Briefed
namespace Briefed

/-! ## Sentence-boundary bookkeeping for the summarizer -/

/-- No position of `l` is a sentence cut: scanning with lookbehind
`prev`, no whitespace character follows a terminator. -/
def noCutB : Char → List Char → Bool
  | _, [] => true
  | prev, c :: rest => !(isTerm prev && pySpace c) && noCutB c rest

/-- Number of sentence cuts of `l` under lookbehind `prev`: positions
where a whitespace character follows a terminator. -/
def cutCount : Char → List Char → Nat
  | _, [] => 0
  | prev, c :: rest => (if isTerm prev && pySpace c then 1 else 0) + cutCount c rest

theorem cutCount_of_noCutB :
    ∀ (l : List Char) (a : Char), noCutB a l = true → cutCount a l = 0 := by
  intro l
  induction l with
  | nil => intro a _; rfl
  | cons c rest ih =>
    intro a h
    simp only [noCutB, Bool.and_eq_true, Bool.not_eq_true'] at h
    simp [cutCount, h.1, ih c h.2]

theorem cutCount_append :
    ∀ (u v : List Char) (a : Char),
      cutCount a (u ++ v) = cutCount a u + cutCount (u.getLastD a) v := by
  intro u
  induction u with
  | nil => intro v a; simp [cutCount, List.getLastD]
  | cons c rest ih =>
    intro v a
    rw [List.cons_append]
    simp only [cutCount, List.getLastD_cons, ih v c]
    omega

theorem foldl_splitStep_noCut :
    ∀ (w : List Char) (st : SplitSt), st.inSep = false → noCutB st.prev w = true →
      ∃ p, w.foldl splitStep st = ⟨st.pieces, w.reverse ++ st.cur, false, p⟩ := by
  intro w
  induction w with
  | nil =>
    intro st h _
    refine ⟨st.prev, ?_⟩
    cases st
    simp_all
  | cons c rest ih =>
    intro st hsep hnc
    simp only [noCutB, Bool.and_eq_true, Bool.not_eq_true'] at hnc
    have hstep : splitStep st c = ⟨st.pieces, c :: st.cur, false, c⟩ := by
      simp [splitStep, hsep, hnc.1]
    obtain ⟨p, hp⟩ := ih ⟨st.pieces, c :: st.cur, false, c⟩ rfl hnc.2
    refine ⟨p, ?_⟩
    simp only [List.foldl_cons, hstep, hp, List.reverse_cons, List.append_assoc,
      List.singleton_append]

/-- C10 (amended): `summarize_text` with a cap of 0 returns the empty
string; and whenever the tag-stripped, whitespace-collapsed text contains
no sentence boundary (no terminator followed by whitespace), any cap of
at least 1 returns that entire cleaned text as a single sentence. -/
theorem summarize_zero_and_single_sentence (x : String) (n : Nat) :
    summarize_text x 0 = "" ∧
    (1 ≤ n → noCutB '\x00' (pyStrip (collapseWs (stripTags x.toList))) = true →
      summarize_text x n = ⟨pyStrip (collapseWs (stripTags x.toList))⟩) := by
  constructor
  · rfl
  · intro hn hnc
    unfold summarize_text summarizeL splitSentences
    obtain ⟨p, hp⟩ := foldl_splitStep_noCut _ splitInit rfl hnc
    rw [hp]
    cases n with
    | zero => omega
    | succ m =>
      simp [splitInit, splitFinish, joinSp]

/-- C10, counterexample to the claim as stated: the raw input
`"a.<p> b"` contains no terminator-followed-by-whitespace boundary (the
`.` is followed by `<`), yet with cap 1 the summarizer returns `"a."`,
not the whole cleaned text `"a. b"` — stripping the tag creates a new
sentence boundary, so the no-boundary condition must be read on the
cleaned text, not on the raw input. -/
theorem summarize_single_sentence_cex :
    noCutB '\x00' (String.toList "a.<p> b") = true ∧
    pyStrip (collapseWs (stripTags (String.toList "a.<p> b"))) = String.toList "a. b" ∧
    summarize_text "a.<p> b" 1 = "a." ∧ summarize_text "a.<p> b" 1 ≠ "a. b" := by
  refine ⟨by decide, by decide, by decide, by decide⟩

theorem pySpace_not_isTerm {c : Char} (h : pySpace c = true) : isTerm c = false := by
  simp only [pySpace, Bool.or_eq_true, decide_eq_true_eq] at h
  rcases h with ((((rfl | rfl) | rfl) | rfl) | rfl) | rfl <;> decide

theorem foldl_splitStep_pieces_length :
    ∀ (w : List Char) (st : SplitSt), (st.inSep = true → pySpace st.prev = true) →
      ((w.foldl splitStep st).pieces).length = st.pieces.length + cutCount st.prev w := by
  intro w
  induction w with
  | nil => intro st _; simp [cutCount]
  | cons c rest ih =>
    intro st hinv
    by_cases hsep : st.inSep = true
    · have hps : pySpace st.prev = true := hinv hsep
      have hterm : (isTerm st.prev && pySpace c) = false := by
        simp [pySpace_not_isTerm hps]
      by_cases hc : pySpace c = true
      · have hstep : splitStep st c = { st with prev := c } := by
          simp [splitStep, hsep, hc]
        simp only [List.foldl_cons, hstep]
        rw [ih { st with prev := c } (fun _ => hc)]
        simp [cutCount, hterm]
      · have hstep : splitStep st c = ⟨st.pieces, [c], false, c⟩ := by
          simp [splitStep, hsep, hc]
        simp only [List.foldl_cons, hstep]
        rw [ih ⟨st.pieces, [c], false, c⟩ (by simp)]
        simp [cutCount, hterm]
    · have hsep' : st.inSep = false := by simpa using hsep
      by_cases hcut : (isTerm st.prev && pySpace c) = true
      · have hstep : splitStep st c =
            ⟨st.pieces ++ [st.cur.reverse], [], true, c⟩ := by
          simp [splitStep, hsep', hcut]
        simp only [List.foldl_cons, hstep]
        rw [ih ⟨st.pieces ++ [st.cur.reverse], [], true, c⟩
          (fun _ => (Bool.and_eq_true .. ▸ hcut).2)]
        simp [cutCount, hcut]
        omega
      · have hcut' : (isTerm st.prev && pySpace c) = false := by simpa using hcut
        have hstep : splitStep st c = ⟨st.pieces, c :: st.cur, false, c⟩ := by
          simp [splitStep, hsep', hcut']
        simp only [List.foldl_cons, hstep]
        rw [ih ⟨st.pieces, c :: st.cur, false, c⟩ (by simp)]
        simp [cutCount, hcut']

theorem splitSentences_length (w : List Char) :
    (splitSentences w).length = 1 + cutCount '\x00' w := by
  unfold splitSentences splitFinish
  rw [List.length_append]
  rw [foldl_splitStep_pieces_length w splitInit (by simp [splitInit])]
  simp [splitInit]
  omega

/-- A produced piece has no internal sentence cut (anchored at its own
head). -/
def pieceFreeB : List Char → Bool
  | [] => true
  | h :: t => noCutB h t

theorem noCutB_append_single :
    ∀ (u : List Char) (a c : Char),
      noCutB a (u ++ [c]) = (noCutB a u && !(isTerm (u.getLastD a) && pySpace c)) := by
  intro u
  induction u with
  | nil => intro a c; simp [noCutB, List.getLastD]
  | cons d t ih =>
    intro a c
    simp only [List.cons_append, noCutB, List.append_eq, ih, List.getLastD_cons,
      Bool.and_assoc]

theorem pieceFreeB_append_single :
    ∀ (u : List Char) (c : Char),
      pieceFreeB (u ++ [c]) =
        (pieceFreeB u && !(isTerm (u.getLastD ' ') && pySpace c) || u.isEmpty) := by
  intro u c
  cases u with
  | nil => simp [pieceFreeB, noCutB]
  | cons d t =>
    simp only [List.cons_append, pieceFreeB, noCutB_append_single, List.getLastD_cons,
      List.isEmpty_cons, Bool.or_false]

/-- Invariant of the split machine: every completed piece is cut-free,
the current piece is cut-free with the machine lookbehind equal to its
last consumed character, and inside a separator the current piece is
empty. -/
def stInv (st : SplitSt) : Prop :=
  (∀ p ∈ st.pieces, pieceFreeB p = true) ∧
  (st.inSep = false → pieceFreeB st.cur.reverse = true ∧
    (st.cur = [] ∨ st.cur.head? = some st.prev)) ∧
  (st.inSep = true → st.cur = [])

theorem stInv_init : stInv splitInit := by
  refine ⟨by simp [splitInit], ?_, by simp [splitInit]⟩
  intro _
  simp [splitInit, pieceFreeB]

theorem stInv_step (st : SplitSt) (c : Char) (h : stInv st) : stInv (splitStep st c) := by
  obtain ⟨h1, h2, h3⟩ := h
  by_cases hsep : st.inSep = true
  · by_cases hc : pySpace c = true
    · have hstep : splitStep st c = { st with prev := c } := by
        simp [splitStep, hsep, hc]
      rw [hstep]
      refine ⟨h1, ?_, fun _ => h3 hsep⟩
      intro hf
      simp only at hf
      rw [hf] at hsep
      exact absurd hsep (by simp)
    · have hstep : splitStep st c = ⟨st.pieces, [c], false, c⟩ := by
        simp [splitStep, hsep, hc]
      rw [hstep]
      refine ⟨h1, ?_, by simp⟩
      intro _
      exact ⟨by simp [pieceFreeB, noCutB], Or.inr rfl⟩
  · have hsep' : st.inSep = false := by simpa using hsep
    by_cases hcut : (isTerm st.prev && pySpace c) = true
    · have hstep : splitStep st c = ⟨st.pieces ++ [st.cur.reverse], [], true, c⟩ := by
        simp [splitStep, hsep', hcut]
      rw [hstep]
      refine ⟨?_, by simp, by simp⟩
      intro p hp
      rcases List.mem_append.mp hp with hp | hp
      · exact h1 p hp
      · rcases List.mem_singleton.mp hp with rfl
        exact (h2 hsep').1
    · have hcut' : (isTerm st.prev && pySpace c) = false := by simpa using hcut
      have hstep : splitStep st c = ⟨st.pieces, c :: st.cur, false, c⟩ := by
        simp [splitStep, hsep', hcut']
      rw [hstep]
      refine ⟨h1, ?_, by simp⟩
      intro _
      obtain ⟨hfree, hhead⟩ := h2 hsep'
      refine ⟨?_, Or.inr rfl⟩
      simp only [List.reverse_cons]
      rw [pieceFreeB_append_single]
      rcases hhead with hnil | hhd
      · rw [hnil]
        simp
      · cases hc : st.cur with
        | nil => simp [hc]
        | cons h t =>
          rw [hc] at hhd hfree
          simp only [List.head?_cons, Option.some.injEq] at hhd
          subst hhd
          simp only [List.reverse_cons] at hfree ⊢
          rw [List.getLastD_concat]
          simp [hfree, hcut']

theorem foldl_splitStep_piecesFree :
    ∀ (w : List Char) (st : SplitSt), stInv st →
      ∀ p ∈ splitFinish (w.foldl splitStep st), pieceFreeB p = true := by
  intro w
  induction w with
  | nil =>
    intro st h p hp
    simp only [List.foldl_nil, splitFinish] at hp
    obtain ⟨h1, h2, h3⟩ := h
    rcases List.mem_append.mp hp with hp | hp
    · exact h1 p hp
    · rcases List.mem_singleton.mp hp with rfl
      by_cases hsep : st.inSep = true
      · rw [h3 hsep]; rfl
      · exact (h2 (by simpa using hsep)).1
  | cons c rest ih =>
    intro st h p hp
    exact ih (splitStep st c) (stInv_step st c h) p hp

theorem splitSentences_piecesFree (w : List Char) :
    ∀ p ∈ splitSentences w, pieceFreeB p = true :=
  foldl_splitStep_piecesFree w splitInit stInv_init

theorem cutCount_of_pieceFree (p : List Char) (a : Char)
    (hp : pieceFreeB p = true) (ha : isTerm a = false) : cutCount a p = 0 := by
  cases p with
  | nil => rfl
  | cons h t =>
    simp only [cutCount, ha, Bool.false_and, if_false]
    simpa using cutCount_of_noCutB t h hp

theorem summarizeL_segments (w : List Char) :
    (splitSentences (summarizeL w 2)).length ≤ 2 := by
  unfold summarizeL
  rw [splitSentences_length]
  rcases hps : splitSentences (pyStrip (collapseWs (stripTags w)))
    with _ | ⟨p1, _ | ⟨p2, rest⟩⟩
  · simp [joinSp, cutCount]
  · have h1 : pieceFreeB p1 = true :=
      splitSentences_piecesFree _ p1 (by rw [hps]; exact List.mem_cons_self _ _)
    simp only [List.take_succ_cons, List.take_nil, joinSp]
    rw [cutCount_of_pieceFree p1 _ h1 (by decide)]
    omega
  · have h1 : pieceFreeB p1 = true :=
      splitSentences_piecesFree _ p1 (by rw [hps]; exact List.mem_cons_self _ _)
    have h2 : pieceFreeB p2 = true :=
      splitSentences_piecesFree _ p2 (by rw [hps]; simp)
    have htake : List.take 2 (p1 :: p2 :: rest) = [p1, p2] := rfl
    rw [htake]
    have hjoin : joinSp [p1, p2] = p1 ++ ' ' :: p2 := rfl
    rw [hjoin, cutCount_append, cutCount_of_pieceFree p1 _ h1 (by decide)]
    simp only [cutCount]
    rw [cutCount_of_pieceFree p2 ' ' h2 (by decide)]
    split_ifs <;> omega

/-! ## Transport of tag matches through the summarizer's passes -/

theorem scanTag_append :
    ∀ (u v r : List Char), scanTag u = some r → scanTag (u ++ v) = some (r ++ v) := by
  intro u
  induction u with
  | nil => intro v r h; simp [scanTag] at h
  | cons c t ih =>
    intro v r h
    simp only [scanTag] at h
    by_cases h1 : c = '>'
    · rw [if_pos h1] at h
      obtain rfl := Option.some.inj h
      simp [scanTag, h1]
    · rw [if_neg h1] at h
      by_cases h2 : c = '<'
      · rw [if_pos h2] at h; exact absurd h (by simp)
      · rw [if_neg h2] at h
        simp only [List.cons_append, scanTag, if_neg h1, if_neg h2]
        exact ih v r h

theorem findTagEnd_append (u v r : List Char) (h : findTagEnd u = some r) :
    findTagEnd (u ++ v) = some (r ++ v) := by
  cases u with
  | nil => simp [findTagEnd] at h
  | cons c t =>
    simp only [findTagEnd] at h
    by_cases h2 : c = '<'
    · rw [if_pos h2] at h; exact absurd h (by simp)
    · rw [if_neg h2] at h
      simp only [List.cons_append, findTagEnd, if_neg h2]
      exact scanTag_append t v r h

theorem hasTag_append_left :
    ∀ (u v : List Char), hasTag u = true → hasTag (u ++ v) = true := by
  intro u
  induction u with
  | nil => intro v h; simp [hasTag] at h
  | cons c t ih =>
    intro v h
    simp only [hasTag, Bool.or_eq_true, Bool.and_eq_true] at h ⊢
    rcases h with ⟨h1, h2⟩ | h3
    · left
      refine ⟨h1, ?_⟩
      obtain ⟨r, hr⟩ := Option.isSome_iff_exists.mp h2
      rw [show t.append v = t ++ v from rfl, findTagEnd_append t v r hr]
      rfl
    · right; exact ih v h3

theorem hasTag_append_right :
    ∀ (u v : List Char), hasTag v = true → hasTag (u ++ v) = true := by
  intro u
  induction u with
  | nil => intro v h; exact h
  | cons c t ih =>
    intro v h
    simp only [List.cons_append, hasTag, Bool.or_eq_true]
    right
    exact ih v h

theorem pySpace_ne_gt {c : Char} (h : pySpace c = true) : ¬c = '>' := by
  simp only [pySpace, Bool.or_eq_true, decide_eq_true_eq] at h
  rcases h with ((((rfl | rfl) | rfl) | rfl) | rfl) | rfl <;> decide

theorem pySpace_ne_lt {c : Char} (h : pySpace c = true) : ¬c = '<' := by
  simp only [pySpace, Bool.or_eq_true, decide_eq_true_eq] at h
  rcases h with ((((rfl | rfl) | rfl) | rfl) | rfl) | rfl <;> decide

theorem scanTag_collapse :
    ∀ (l : List Char) (b : Bool), (scanTag (collapseWsAux b l)).isSome = true →
      (scanTag l).isSome = true := by
  intro l
  induction l with
  | nil => intro b h; simp [collapseWsAux, scanTag] at h
  | cons c rest ih =>
    intro b h
    by_cases hc : pySpace c = true
    · have hgt := pySpace_ne_gt hc
      have hlt := pySpace_ne_lt hc
      have hgoal : scanTag (c :: rest) = scanTag rest := by
        simp only [scanTag, if_neg hgt, if_neg hlt]
      rw [hgoal]
      cases b with
      | true =>
        have e : collapseWsAux true (c :: rest) = collapseWsAux true rest := by
          simp [collapseWsAux, hc]
        rw [e] at h
        exact ih true h
      | false =>
        have e : collapseWsAux false (c :: rest) = ' ' :: collapseWsAux true rest := by
          simp [collapseWsAux, hc]
        rw [e] at h
        simp only [scanTag, if_neg (by decide : ¬(' ' = '>')),
          if_neg (by decide : ¬(' ' = '<'))] at h
        exact ih true h
    · have e : collapseWsAux b (c :: rest) = c :: collapseWsAux false rest := by
        simp [collapseWsAux, hc]
      rw [e] at h
      by_cases h1 : c = '>'
      · simp [scanTag, h1]
      · by_cases h2 : c = '<'
        · rw [show scanTag (c :: collapseWsAux false rest) = none by
            simp [scanTag, h1, h2]] at h
          simp at h
        · simp only [scanTag, if_neg h1, if_neg h2] at h ⊢
          exact ih false h

theorem findTagEnd_isSome_scanTag :
    ∀ l : List Char, (findTagEnd l).isSome = true → (scanTag l).isSome = true := by
  intro l
  cases l with
  | nil => intro h; simp [findTagEnd] at h
  | cons c t =>
    intro h
    simp only [findTagEnd] at h
    by_cases h2 : c = '<'
    · rw [if_pos h2] at h; simp at h
    · rw [if_neg h2] at h
      simp only [scanTag]
      by_cases h1 : c = '>'
      · rw [if_pos h1]; rfl
      · rw [if_neg h1, if_neg h2]; exact h

theorem findTagEnd_collapse :
    ∀ (l : List Char) (b : Bool), (findTagEnd (collapseWsAux b l)).isSome = true →
      (findTagEnd l).isSome = true := by
  intro l
  induction l with
  | nil => intro b h; simp [collapseWsAux, findTagEnd] at h
  | cons c rest ih =>
    intro b h
    by_cases hc : pySpace c = true
    · have hlt := pySpace_ne_lt hc
      have hgoal : findTagEnd (c :: rest) = scanTag rest := by
        simp only [findTagEnd, if_neg hlt]
      rw [hgoal]
      cases b with
      | true =>
        have e : collapseWsAux true (c :: rest) = collapseWsAux true rest := by
          simp [collapseWsAux, hc]
        rw [e] at h
        exact findTagEnd_isSome_scanTag rest (ih true h)
      | false =>
        have e : collapseWsAux false (c :: rest) = ' ' :: collapseWsAux true rest := by
          simp [collapseWsAux, hc]
        rw [e] at h
        simp only [findTagEnd, if_neg (by decide : ¬(' ' = '<'))] at h
        exact scanTag_collapse rest true h
    · have e : collapseWsAux b (c :: rest) = c :: collapseWsAux false rest := by
        simp [collapseWsAux, hc]
      rw [e] at h
      by_cases h2 : c = '<'
      · rw [show findTagEnd (c :: collapseWsAux false rest) = none by
          simp [findTagEnd, h2]] at h
        simp at h
      · simp only [findTagEnd, if_neg h2] at h ⊢
        exact scanTag_collapse rest false h

theorem hasTag_collapse :
    ∀ (l : List Char) (b : Bool), hasTag (collapseWsAux b l) = true → hasTag l = true := by
  intro l
  induction l with
  | nil => intro b h; simp [collapseWsAux, hasTag] at h
  | cons c rest ih =>
    intro b h
    simp only [hasTag, Bool.or_eq_true, Bool.and_eq_true]
    by_cases hc : pySpace c = true
    · right
      cases b with
      | true =>
        have e : collapseWsAux true (c :: rest) = collapseWsAux true rest := by
          simp [collapseWsAux, hc]
        rw [e] at h
        exact ih true h
      | false =>
        have e : collapseWsAux false (c :: rest) = ' ' :: collapseWsAux true rest := by
          simp [collapseWsAux, hc]
        rw [e] at h
        simp only [hasTag, Bool.or_eq_true, Bool.and_eq_true,
          decide_eq_true_eq] at h
        rcases h with ⟨h1, _⟩ | h2
        · exact absurd h1 (by decide)
        · exact ih true h2
    · have e : collapseWsAux b (c :: rest) = c :: collapseWsAux false rest := by
        simp [collapseWsAux, hc]
      rw [e] at h
      simp only [hasTag, Bool.or_eq_true, Bool.and_eq_true] at h
      rcases h with ⟨h1, h2⟩ | h3
      · left
        exact ⟨h1, findTagEnd_collapse rest false h2⟩
      · right
        exact ih false h3

theorem dropWhile_decomp :
    ∀ l : List Char, ∃ t, t ++ l.dropWhile pySpace = l := by
  intro l
  induction l with
  | nil => exact ⟨[], rfl⟩
  | cons c rest ih =>
    by_cases hc : pySpace c = true
    · obtain ⟨t, ht⟩ := ih
      refine ⟨c :: t, ?_⟩
      simp [List.dropWhile_cons, hc, ht]
    · exact ⟨[], by simp [List.dropWhile_cons, hc]⟩

theorem pyStrip_decomp (l : List Char) : ∃ t, pyStrip l ++ t = l.dropWhile pySpace := by
  obtain ⟨t, ht⟩ := dropWhile_decomp ((l.dropWhile pySpace).reverse)
  refine ⟨t.reverse, ?_⟩
  have h2 := congrArg List.reverse ht
  simpa [pyStrip, List.reverse_append] using h2

theorem hasTag_pyStrip (l : List Char) (h : hasTag (pyStrip l) = true) :
    hasTag l = true := by
  obtain ⟨t, ht⟩ := pyStrip_decomp l
  obtain ⟨t', ht'⟩ := dropWhile_decomp l
  have h1 : hasTag (l.dropWhile pySpace) = true := by
    rw [← ht]; exact hasTag_append_left _ _ h
  rw [← ht']
  exact hasTag_append_right _ _ h1

/-! ## The split–join round trip on collapsed text -/

/-- Whitespace discipline of collapsed text: every whitespace character
is a single `' '` not preceded by whitespace. -/
def okRun : Char → List Char → Bool
  | _, [] => true
  | prev, c :: rest =>
    (if pySpace c then c = ' ' && !pySpace prev else true) && okRun c rest

theorem joinSp_append_single :
    ∀ (P : List (List Char)) (x : List Char),
      joinSp (P ++ [x]) = if P = [] then x else joinSp P ++ ' ' :: x := by
  intro P
  induction P with
  | nil => intro x; simp [joinSp]
  | cons p ps ih =>
    intro x
    cases ps with
    | nil => simp [joinSp]
    | cons q qs =>
      have e1 : joinSp ((p :: q :: qs) ++ [x]) = p ++ ' ' :: joinSp ((q :: qs) ++ [x]) := rfl
      have e2 : joinSp (p :: q :: qs) = p ++ ' ' :: joinSp (q :: qs) := rfl
      rw [if_neg (by simp : ¬(p :: q :: qs) = []), e1, ih x,
        if_neg (by simp : ¬(q :: qs) = []), e2]
      simp [List.append_assoc]

theorem foldl_splitStep_join :
    ∀ (w : List Char) (st : SplitSt),
      (st.inSep = true → pySpace st.prev = true ∧ st.pieces ≠ [] ∧ st.cur = []) →
      okRun st.prev w = true →
      joinSp (splitFinish (w.foldl splitStep st)) = joinSp (splitFinish st) ++ w := by
  intro w
  induction w with
  | nil => intro st _ _; simp
  | cons c rest ih =>
    intro st hinv hok
    simp only [okRun, Bool.and_eq_true] at hok
    obtain ⟨hok1, hok2⟩ := hok
    by_cases hsep : st.inSep = true
    · obtain ⟨hps, hpn, hcur⟩ := hinv hsep
      by_cases hc : pySpace c = true
      · rw [if_pos hc, Bool.and_eq_true, hps] at hok1
        simp at hok1
      · have hstep : splitStep st c = ⟨st.pieces, [c], false, c⟩ := by
          simp [splitStep, hsep, hc]
        simp only [List.foldl_cons, hstep]
        rw [ih ⟨st.pieces, [c], false, c⟩ (by simp) hok2]
        simp only [splitFinish, hcur]
        rw [joinSp_append_single, joinSp_append_single, if_neg hpn, if_neg hpn]
        simp
    · have hsep' : st.inSep = false := by simpa using hsep
      by_cases hcut : (isTerm st.prev && pySpace c) = true
      · have hc : pySpace c = true := by
          have h' := hcut
          simp only [Bool.and_eq_true] at h'
          exact h'.2
        rw [if_pos hc, Bool.and_eq_true, decide_eq_true_eq] at hok1
        obtain ⟨hceq, _⟩ := hok1
        subst hceq
        have hstep : splitStep st ' ' = ⟨st.pieces ++ [st.cur.reverse], [], true, ' '⟩ := by
          simp [splitStep, hsep', hcut]
        simp only [List.foldl_cons, hstep]
        rw [ih ⟨st.pieces ++ [st.cur.reverse], [], true, ' '⟩
          (by
            intro _
            refine ⟨?_, ?_, ?_⟩
            · show pySpace ' ' = true
              decide
            · show st.pieces ++ [st.cur.reverse] ≠ []
              simp
            · rfl) hok2]
        simp only [splitFinish, List.reverse_nil]
        rw [joinSp_append_single (st.pieces ++ [st.cur.reverse]), if_neg (by simp)]
        simp
      · have hcut' : (isTerm st.prev && pySpace c) = false := by simpa using hcut
        have hstep : splitStep st c = ⟨st.pieces, c :: st.cur, false, c⟩ := by
          simp [splitStep, hsep', hcut']
        simp only [List.foldl_cons, hstep]
        rw [ih ⟨st.pieces, c :: st.cur, false, c⟩ (by simp) hok2]
        simp only [splitFinish, List.reverse_cons]
        rw [joinSp_append_single st.pieces, joinSp_append_single st.pieces]
        by_cases hp : st.pieces = []
        · rw [if_pos hp, if_pos hp]
          simp
        · rw [if_neg hp, if_neg hp]
          simp

theorem splitSentences_join (z : List Char) (hok : okRun '\x00' z = true) :
    joinSp (splitSentences z) = z := by
  unfold splitSentences
  rw [foldl_splitStep_join z splitInit (by simp [splitInit]) hok]
  simp [splitFinish, splitInit, joinSp]

theorem okRun_collapseWsAux :
    ∀ (l : List Char) (b : Bool) (prev : Char), (b = false → pySpace prev = false) →
      okRun prev (collapseWsAux b l) = true := by
  intro l
  induction l with
  | nil => intro b prev _; rfl
  | cons c rest ih =>
    intro b prev hb
    by_cases hc : pySpace c = true
    · cases b with
      | true =>
        have e : collapseWsAux true (c :: rest) = collapseWsAux true rest := by
          simp [collapseWsAux, hc]
        rw [e]
        exact ih true prev (by simp)
      | false =>
        have e : collapseWsAux false (c :: rest) = ' ' :: collapseWsAux true rest := by
          simp [collapseWsAux, hc]
        rw [e]
        simp only [okRun, Bool.and_eq_true]
        refine ⟨?_, ih true ' ' (by simp)⟩
        rw [if_pos (by decide : pySpace ' ' = true)]
        simp [hb rfl]
    · have e : collapseWsAux b (c :: rest) = c :: collapseWsAux false rest := by
        simp [collapseWsAux, hc]
      rw [e]
      simp only [okRun, Bool.and_eq_true]
      refine ⟨?_, ih false c (fun _ => by simpa using hc)⟩
      rw [if_neg (by simpa using hc)]

theorem okRun_dropWhile :
    ∀ (l : List Char) (p q : Char), okRun p l = true →
      okRun q (l.dropWhile pySpace) = true := by
  intro l
  induction l with
  | nil => intro p q _; rfl
  | cons c rest ih =>
    intro p q h
    simp only [okRun, Bool.and_eq_true] at h
    by_cases hc : pySpace c = true
    · rw [List.dropWhile_cons, if_pos hc]
      exact ih c q h.2
    · rw [List.dropWhile_cons, if_neg hc]
      simp only [okRun, Bool.and_eq_true]
      exact ⟨by rw [if_neg hc], h.2⟩

theorem okRun_append_left :
    ∀ (u v : List Char) (p : Char), okRun p (u ++ v) = true → okRun p u = true := by
  intro u
  induction u with
  | nil => intro v p _; rfl
  | cons c t ih =>
    intro v p h
    simp only [List.cons_append, okRun, Bool.and_eq_true] at h ⊢
    exact ⟨h.1, ih v c h.2⟩

theorem okRun_pyStrip (l : List Char) (p q : Char) (h : okRun p l = true) :
    okRun q (pyStrip l) = true := by
  have h1 : okRun q (l.dropWhile pySpace) = true := okRun_dropWhile l p q h
  obtain ⟨t, ht⟩ := pyStrip_decomp l
  rw [← ht] at h1
  exact okRun_append_left _ _ _ h1

theorem joinSp_take_decomp :
    ∀ (k : Nat) (ps : List (List Char)), ∃ t, joinSp (ps.take k) ++ t = joinSp ps := by
  intro k
  induction k with
  | zero => intro ps; exact ⟨joinSp ps, by simp [joinSp]⟩
  | succ k ih =>
    intro ps
    cases ps with
    | nil => exact ⟨[], rfl⟩
    | cons p ps' =>
      cases ps' with
      | nil => exact ⟨[], by simp⟩
      | cons q qs =>
        cases k with
        | zero =>
          refine ⟨' ' :: joinSp (q :: qs), ?_⟩
          simp [joinSp]
        | succ k' =>
          obtain ⟨t, ht⟩ := ih (q :: qs)
          refine ⟨t, ?_⟩
          have e1 : List.take (k' + 1 + 1) (p :: q :: qs) =
              p :: List.take (k' + 1) (q :: qs) := rfl
          rw [e1]
          have e2 : List.take (k' + 1) (q :: qs) = q :: List.take k' qs := rfl
          have e3 : joinSp (p :: List.take (k' + 1) (q :: qs)) =
              p ++ ' ' :: joinSp (List.take (k' + 1) (q :: qs)) := by
            rw [e2]; rfl
          have e4 : joinSp (p :: q :: qs) = p ++ ' ' :: joinSp (q :: qs) := rfl
          rw [e3, e4, ← ht]
          simp

/-- C5 (amended): the summary at cap 2 always contains at most 2
sentence-terminator-delimited segments (counted by the code's own
splitter); and it contains no raw tag markup provided a single
tag-stripping pass leaves none in the input — stripping is not
idempotent, so nested `<` can leave markup (see the counterexample). -/
theorem summarize_two_sentences_no_markup (x : String) :
    (splitSentences (summarize_text x 2).toList).length ≤ 2 ∧
    (hasTag (stripTags x.toList) = false → hasTag (summarize_text x 2).toList = false) := by
  constructor
  · exact summarizeL_segments x.toList
  · intro hy
    show hasTag (summarizeL x.toList 2) = false
    by_contra hcon
    have htag : hasTag (summarizeL x.toList 2) = true := by
      revert hcon
      cases hasTag (summarizeL x.toList 2) <;> simp
    have hok : okRun '\x00' (pyStrip (collapseWs (stripTags x.toList))) = true :=
      okRun_pyStrip _ '\x00' '\x00'
        (okRun_collapseWsAux (stripTags x.toList) false '\x00' (fun _ => by decide))
    have hjz := splitSentences_join _ hok
    obtain ⟨t, ht⟩ :=
      joinSp_take_decomp 2 (splitSentences (pyStrip (collapseWs (stripTags x.toList))))
    have h1 : hasTag
        (joinSp ((splitSentences (pyStrip (collapseWs (stripTags x.toList)))).take 2)
          ++ t) = true :=
      hasTag_append_left _ _ htag
    rw [ht, hjz] at h1
    have h2 : hasTag (collapseWs (stripTags x.toList)) = true := hasTag_pyStrip _ h1
    have h3 : hasTag (stripTags x.toList) = true := hasTag_collapse _ false h2
    rw [h3] at hy
    exact absurd hy (by simp)

/-- C5, counterexample to the claim as stated: on `"<<a>b>"` the single
`re.sub` pass removes only `<a>`, so the summary is `"<b>"`, which still
contains raw tag markup. -/
theorem summarize_markup_cex :
    summarize_text "<<a>b>" 2 = "<b>" ∧
    hasTag (summarize_text "<<a>b>" 2).toList = true := by
  exact ⟨by decide, by decide⟩

/-- Sanity anchors: the conditional halves of the amended C5 and C10 are
satisfiable — a no-boundary input passes through whole, and an input
whose stripped text has no residual markup yields a markup-free
summary. -/
theorem summarize_examples :
    (noCutB '\x00' (pyStrip (collapseWs (stripTags (String.toList "hello world")))) = true ∧
      summarize_text "hello world" 5 = "hello world") ∧
    (hasTag (stripTags (String.toList "<p>one. two. three.</p>")) = false ∧
      summarize_text "<p>one. two. three.</p>" 2 = "one. two." ∧
      hasTag (summarize_text "<p>one. two. three.</p>" 2).toList = false) := by
  exact ⟨⟨by decide, by decide⟩, by decide, by decide, by decide⟩

end Briefed
